import Mathlib

/-!
Shallow embedding of the quadratic-lensing-estimator tutorial notebooks:
the binned 2D power spectrum estimator (calculate_2d_spectrum) from the
lensing simulation notebook, and the quadratic estimator (qe_reconstruct)
from the reconstruction notebook.  Real-valued N by N maps are total
functions on Fin n times Fin n; numpy FFTs become explicit exponential
sums; the numpy NaN produced by the mean of an empty selection is
modelled as Option.none.
-/

namespace CMBLensing

open scoped Classical

noncomputable section

/-- A real-valued square map of side n (a numpy 2d array), indexed by row
then column. -/
abbrev Map (n : ℕ) := Fin n → Fin n → ℝ

/-- Cast a real map to a complex-valued grid (numpy real-to-complex
promotion before an FFT). -/
def toC (n : ℕ) (m : Map n) : Fin n → Fin n → ℂ := fun i j => ((m i j : ℝ) : ℂ)

/-- Index shift realizing numpy fftshift on one axis of length n: entry i of
the shifted array is entry (i - n/2) mod n (equivalently (i + (n - n/2)) mod n)
of the original. -/
def shiftIdx {n : ℕ} (i : Fin n) : Fin n :=
  ⟨(i.val + (n - n / 2)) % n, Nat.mod_lt _ i.pos⟩

/-- numpy fftshift of a 2d array: both axes are rolled by n/2. -/
def fftshift {α : Type} (n : ℕ) (x : Fin n → Fin n → α) : Fin n → Fin n → α :=
  fun i j => x (shiftIdx i) (shiftIdx j)

/-- The forward (unnormalized, negative-exponent) 2D discrete Fourier
transform, the convention of numpy fft2. -/
def dft2 (n : ℕ) (x : Fin n → Fin n → ℂ) (k l : Fin n) : ℂ :=
  ∑ m : Fin n, ∑ j : Fin n,
    x m j * Complex.exp (-(2 * (Real.pi : ℂ) * Complex.I) *
      ((k.val * m.val + l.val * j.val : ℕ) : ℂ) / (n : ℂ))

/-- numpy ifft2: the inverse 2D discrete Fourier transform, with positive
exponent and 1/n^2 normalization. -/
def ifft2 (n : ℕ) (x : Fin n → Fin n → ℂ) (k l : Fin n) : ℂ :=
  (∑ m : Fin n, ∑ j : Fin n,
    x m j * Complex.exp ((2 * (Real.pi : ℂ) * Complex.I) *
      ((k.val * m.val + l.val * j.val : ℕ) : ℂ) / (n : ℂ))) / ((n : ℂ) ^ 2)

/-- Additive inverse of a frequency index mod n. -/
def negIdx {n : ℕ} (i : Fin n) : Fin n :=
  ⟨(n - i.val) % n, Nat.mod_lt _ i.pos⟩

/-- The centered fractional index grid of calculate_2d_spectrum:
inds = (arange(N) + 0.5 - N/2) / (N - 1). -/
def inds (n : ℕ) (i : Fin n) : ℝ := ((i : ℝ) + 0.5 - (n : ℝ) / 2) / ((n : ℝ) - 1)

/-- kX = outer(ones, inds) / (pix_size/60 * pi/180): constant along rows. -/
def kXgrid (n : ℕ) (pix : ℝ) (i j : Fin n) : ℝ :=
  inds n j / (pix / 60 * (Real.pi / 180))

/-- kY is the transpose of kX. -/
def kYgrid (n : ℕ) (pix : ℝ) (i j : Fin n) : ℝ :=
  inds n i / (pix / 60 * (Real.pi / 180))

/-- ell2d = 2 pi * sqrt(kX^2 + kY^2), the per-pixel multipole magnitude of
calculate_2d_spectrum. -/
def ell2d (n : ℕ) (pix : ℝ) (i j : Fin n) : ℝ :=
  Real.sqrt (kXgrid n pix i j ^ 2 + kYgrid n pix i j ^ 2) * (2 * Real.pi)

/-- Python float-to-int conversion: truncation toward zero (both the int()
builtin and numpy assignment of a float into an int64 array). -/
def truncToInt (x : ℝ) : ℤ := if 0 ≤ x then ⌊x⌋ else ⌈x⌉

/-- N_bins = int(ell_max / delta_ell). -/
def nBins (delta_ell ell_max : ℝ) : ℕ := (truncToInt (ell_max / delta_ell)).toNat

/-- The i-th entry written into the int64 array ell_array by the loop:
the float (i + 0.5) * delta_ell truncated by the int64 assignment. -/
def ellArray (delta_ell : ℝ) (i : ℕ) : ℤ := truncToInt (((i : ℝ) + 0.5) * delta_ell)

/-- The pixels selected for bin i: those whose ell2d value lies in the
half-open interval from i*delta_ell to (i+1)*delta_ell. -/
def binPixels (n : ℕ) (pix delta_ell : ℝ) (i : ℕ) : Finset (Fin n × Fin n) :=
  Finset.univ.filter (fun p =>
    (i : ℝ) * delta_ell ≤ ell2d n pix p.1 p.2 ∧
    ell2d n pix p.1 p.2 < ((i : ℝ) + 1) * delta_ell)

/-- FMap = ifft2(fftshift(Map)): the transform applied to each input map of
calculate_2d_spectrum. -/
def FMap (n : ℕ) (m : Map n) : Fin n → Fin n → ℂ :=
  ifft2 n (fftshift n (toC n m))

/-- PSMap = fftshift(real(conj(FMap1) * FMap2)): the 2D cross-power grid
that is binned by calculate_2d_spectrum. -/
def PSMap (n : ℕ) (m1 m2 : Map n) : Map n :=
  fftshift n (fun k l => ((starRingEnd ℂ) (FMap n m1 k l) * FMap n m2 k l).re)

/-- The final scalar normalization sqrt(pix_size/60 * pi/180) * 2 applied
to the whole CL array; it depends only on pix_size. -/
def CLfactor (pix : ℝ) : ℝ := Real.sqrt (pix / 60 * (Real.pi / 180)) * 2

/-- The i-th bin average mean(PSMap[inds_in_bin]) before normalization;
numpy returns NaN on an empty selection, modelled as none. -/
def CLraw (n : ℕ) (m1 m2 : Map n) (delta_ell pix : ℝ) (i : ℕ) : Option ℝ :=
  if (binPixels n pix delta_ell i).card = 0 then none
  else some ((∑ p ∈ binPixels n pix delta_ell i, PSMap n m1 m2 p.1 p.2) /
    ((binPixels n pix delta_ell i).card : ℝ))

/-- The i-th entry of the returned CL_array, after the array-wide
multiplication by the normalization factor (NaN times a float is NaN). -/
def CLArray (n : ℕ) (m1 m2 : Map n) (delta_ell pix : ℝ) (i : ℕ) : Option ℝ :=
  (CLraw n m1 m2 delta_ell pix i).map (fun v => v * CLfactor pix)

/-- calculate_2d_spectrum(Map1, Map2, delta_ell, ell_max, pix_size, N):
returns the pair (ell_array, CL_array); the arrays have length
nBins delta_ell ell_max and are represented by their entry functions. -/
def calculate_2d_spectrum (n : ℕ) (m1 m2 : Map n) (delta_ell ell_max pix : ℝ) :
    (ℕ → ℤ) × (ℕ → Option ℝ) :=
  (fun i => ellArray delta_ell i, fun i => CLArray n m1 m2 delta_ell pix i)

/-- Stated from the spec sentence of claim C4 only, for comparison with the
code: the cross-power grid built by forward-transforming each input map with
the (unnormalized, unshifted) 2D discrete Fourier transform and taking the
real part of conj(T1) * T2. -/
def specForwardCrossPower (n : ℕ) (m1 m2 : Map n) : Map n :=
  fun k l => ((starRingEnd ℂ) (dft2 n (toC n m1) k l) * dft2 n (toC n m2) k l).re

/-- The all-zero 2 by 2 map, used as a concrete input. -/
def zeroMap2 : Map 2 := fun _ _ => 0

/-- The all-ones 2 by 2 map, used as a concrete input. -/
def onesMap2 : Map 2 := fun _ _ => 1

/-- Modelled from the spec: kmask from lens_modules (the module file is not
under src/; only its callers are).  Returns a copy of the value grid with
every pixel whose modlmap value lies outside the half-open interval from
ellmin to ellmax set to zero; an omitted ellmax (none) imposes no upper
bound. -/
def kmask (n : ℕ) (v modl : Map n) (ellmin : ℝ) (ellmax : Option ℝ) : Map n :=
  fun i j =>
    if ellmin ≤ modl i j ∧ (∀ M ∈ ellmax, modl i j < M) then v i j else 0

/-- Modelled from the spec: filter_map from lens_modules (not under src/).
Forward-transform the map, multiply element-wise by the transfer function,
inverse-transform, and take the real part. -/
def filter_map (n : ℕ) (m t : Map n) : Map n :=
  fun i j => (ifft2 n (fun k l => dft2 n (toC n m) k l * t k l) i j).re

/-- Modelled from the spec: the y component of gradient from lens_modules
(not under src/): multiply the transform by I * ly, inverse-transform, take
the real part. -/
def gradientY (n : ℕ) (m ly : Map n) : Map n :=
  fun i j => (ifft2 n (fun k l => Complex.I * (ly k l : ℂ) * dft2 n (toC n m) k l) i j).re

/-- Modelled from the spec: the x component of gradient from lens_modules
(not under src/): multiply the transform by I * lx, inverse-transform, take
the real part. -/
def gradientX (n : ℕ) (m lx : Map n) : Map n :=
  fun i j => (ifft2 n (fun k l => Complex.I * (lx k l : ℂ) * dft2 n (toC n m) k l) i j).re

/-- Modelled from the spec: divergence (the div function the notebook leaves
as an exercise): transform each component, multiply by I * ly and I * lx
respectively, sum, inverse-transform, take the real part. -/
def divergence (n : ℕ) (fy fx ly lx : Map n) : Map n :=
  fun i j => (ifft2 n (fun k l =>
    Complex.I * (ly k l : ℂ) * dft2 n (toC n fy) k l +
    Complex.I * (lx k l : ℂ) * dft2 n (toC n fx) k l) i j).re

/-- inv_noise_filter = kmask(1/total_cmb_power_2d, modlmap, ellmin, ellmax). -/
def qeInvNoiseFilter (n : ℕ) (tot2d modlmap : Map n) (ellmin ellmax : ℝ) : Map n :=
  kmask n (fun i j => 1 / tot2d i j) modlmap ellmin (some ellmax)

/-- grad_filter = kmask(unlensed_cmb_power_2d/total_cmb_power_2d, modlmap,
ellmin, ellmax). -/
def qeGradFilter (n : ℕ) (u2d tot2d modlmap : Map n) (ellmin ellmax : ℝ) : Map n :=
  kmask n (fun i j => u2d i j / tot2d i j) modlmap ellmin (some ellmax)

/-- filtered_gradTy = filter_map(gradTy, grad_filter). -/
def qeFilteredGradY (n : ℕ) (tmap u2d tot2d modlmap ly : Map n) (ellmin ellmax : ℝ) : Map n :=
  filter_map n (gradientY n tmap ly) (qeGradFilter n u2d tot2d modlmap ellmin ellmax)

/-- filtered_gradTx = filter_map(gradTx, grad_filter). -/
def qeFilteredGradX (n : ℕ) (tmap u2d tot2d modlmap lx : Map n) (ellmin ellmax : ℝ) : Map n :=
  filter_map n (gradientX n tmap lx) (qeGradFilter n u2d tot2d modlmap ellmin ellmax)

/-- filtered_T = filter_map(tmap, inv_noise_filter). -/
def qeFilteredT (n : ℕ) (tmap tot2d modlmap : Map n) (ellmin ellmax : ℝ) : Map n :=
  filter_map n tmap (qeInvNoiseFilter n tot2d modlmap ellmin ellmax)

/-- Modelled from the spec (step 5 of the quadratic estimator; the line the
notebook leaves as an exercise): the raw divergence-based estimate
recon_kappa = divergence(grad(T_W)_y * T_IV, grad(T_W)_x * T_IV, ly, lx). -/
def qeReconKappa (n : ℕ) (tmap u2d tot2d modlmap ly lx : Map n) (ellmin ellmax : ℝ) : Map n :=
  divergence n
    (fun i j => qeFilteredGradY n tmap u2d tot2d modlmap ly ellmin ellmax i j *
      qeFilteredT n tmap tot2d modlmap ellmin ellmax i j)
    (fun i j => qeFilteredGradX n tmap u2d tot2d modlmap lx ellmin ellmax i j *
      qeFilteredT n tmap tot2d modlmap ellmin ellmax i j)
    ly lx

/-- The final flattening transfer function of qe_reconstruct:
kmask(1/modlmap^2, modlmap, ellmin=2) with no upper band limit. -/
def qeFinalMask (n : ℕ) (modlmap : Map n) : Map n :=
  kmask n (fun a b => 1 / modlmap a b ^ 2) modlmap 2 none

/-- qe_reconstruct(tmap, unlensed_cmb_power_2d, total_cmb_power_2d, ellmin,
ellmax, modlmap, ly, lx): returns
-filter_map(recon_kappa, kmask(1/modlmap^2, modlmap, ellmin=2)). -/
def qe_reconstruct (n : ℕ) (tmap u2d tot2d : Map n) (ellmin ellmax : ℝ)
    (modlmap ly lx : Map n) : Map n :=
  fun i j =>
    - filter_map n (qeReconKappa n tmap u2d tot2d modlmap ly lx ellmin ellmax)
        (qeFinalMask n modlmap) i j

/-- deg2rad: degrees to radians. -/
def deg2rad (x : ℝ) : ℝ := x * (Real.pi / 180)

/-- gauss_beam(ell, fwhm) from the reconstruction notebook: the map-space
Gaussian beam transfer function exp(-tht_fwhm^2 * ell^2 / (16 * log 2))
with tht_fwhm = deg2rad(fwhm/60). -/
def gauss_beam (ell fwhm : ℝ) : ℝ :=
  Real.exp (-(deg2rad (fwhm / 60) ^ 2) * ell ^ 2 / (16 * Real.log 2))

end

/-! Helper lemmas. -/

lemma conj_mul_re_comm (z w : ℂ) :
    ((starRingEnd ℂ) z * w).re = ((starRingEnd ℂ) w * z).re := by
  simp only [Complex.mul_re, Complex.conj_re, Complex.conj_im]
  ring

lemma PSMap_symm (n : ℕ) (m1 m2 : Map n) : PSMap n m1 m2 = PSMap n m2 m1 := by
  funext i j
  unfold PSMap fftshift
  exact conj_mul_re_comm _ _

lemma conj_mul_self_re_nonneg (z : ℂ) : 0 ≤ ((starRingEnd ℂ) z * z).re := by
  have h : ((starRingEnd ℂ) z * z).re = z.re ^ 2 + z.im ^ 2 := by
    simp only [Complex.mul_re, Complex.conj_re, Complex.conj_im]
    ring
  rw [h]
  positivity

lemma PSMap_auto_nonneg (n : ℕ) (m : Map n) (k l : Fin n) : 0 ≤ PSMap n m m k l := by
  unfold PSMap fftshift
  exact conj_mul_self_re_nonneg _

lemma CLfactor_nonneg (pix : ℝ) : 0 ≤ CLfactor pix := by
  unfold CLfactor
  positivity

lemma inds_two_sq (i : Fin 2) : inds 2 i ^ 2 = 1 / 4 := by
  fin_cases i <;> (unfold inds; norm_num)

lemma sqrt_half : Real.sqrt (1 / 2) = Real.sqrt 2 / 2 := by
  have h4 : Real.sqrt 4 = 2 := by
    rw [show (4 : ℝ) = 2 ^ 2 by norm_num, Real.sqrt_sq (by norm_num)]
  rw [show (1 / 2 : ℝ) = 2 / 4 by norm_num, Real.sqrt_div (by norm_num), h4]

lemma ell2d_two (i j : Fin 2) : ell2d 2 1 i j = 10800 * Real.sqrt 2 := by
  have hpi := Real.pi_pos
  unfold ell2d kXgrid kYgrid
  rw [div_pow, div_pow, inds_two_sq, inds_two_sq]
  have hc : (1 / 4 : ℝ) / ((1 / 60 * (Real.pi / 180)) ^ 2) +
      1 / 4 / ((1 / 60 * (Real.pi / 180)) ^ 2) = (10800 / Real.pi) ^ 2 * (1 / 2) := by
    field_simp
    ring
  rw [hc, Real.sqrt_mul (by positivity), Real.sqrt_sq (by positivity), sqrt_half]
  field_simp
  ring

lemma sqrt_two_lt : Real.sqrt 2 < 50 / 27 := by
  rw [show (50 / 27 : ℝ) = Real.sqrt ((50 / 27) ^ 2) by
    rw [Real.sqrt_sq (by norm_num)]]
  exact Real.sqrt_lt_sqrt (by norm_num) (by norm_num)

lemma one_le_sqrt_two : (1 : ℝ) ≤ Real.sqrt 2 := by
  rw [show (1 : ℝ) = Real.sqrt 1 by simp]
  exact Real.sqrt_le_sqrt (by norm_num)

lemma bin0_mem_n2 : ((0, 0) : Fin 2 × Fin 2) ∈ binPixels 2 1 20000 0 := by
  have h1 := sqrt_two_lt
  have h2 := Real.sqrt_nonneg (2 : ℝ)
  simp only [binPixels, Finset.mem_filter, Finset.mem_univ, true_and, ell2d_two]
  constructor
  · push_cast
    nlinarith
  · push_cast
    nlinarith

lemma bin0_empty_n2 : binPixels 2 1 1 0 = ∅ := by
  rw [Finset.eq_empty_iff_forall_not_mem]
  intro p hp
  simp only [binPixels, Finset.mem_filter, Finset.mem_univ, true_and, ell2d_two] at hp
  have h1 := one_le_sqrt_two
  have h2 := hp.2
  push_cast at h2
  nlinarith

/-! The claims. -/

/-- Claim C1: calculate_2d_spectrum is symmetric in its two map arguments:
for all maps A and B and all parameters, it returns the same
(ell_array, CL_array) pair when the maps are swapped, elementwise across
all bins. -/
theorem calculate_2d_spectrum_symm (n : ℕ) (m1 m2 : Map n)
    (delta_ell ell_max pix : ℝ) :
    calculate_2d_spectrum n m1 m2 delta_ell ell_max pix =
    calculate_2d_spectrum n m2 m1 delta_ell ell_max pix := by
  unfold calculate_2d_spectrum CLArray CLraw
  rw [PSMap_symm]

/-- Claim C2: every bin of the auto-spectrum calculate_2d_spectrum(A, A, ...)
that contains at least one pixel has a non-negative value in the returned
CL_array. -/
theorem auto_spectrum_nonneg (n : ℕ) (m : Map n) (delta_ell ell_max pix : ℝ)
    (i : ℕ) (h : (binPixels n pix delta_ell i).Nonempty) :
    ∃ v, (calculate_2d_spectrum n m m delta_ell ell_max pix).2 i = some v ∧
      0 ≤ v := by
  have hcard : (binPixels n pix delta_ell i).card ≠ 0 :=
    (Finset.card_pos.mpr h).ne'
  refine ⟨(∑ p ∈ binPixels n pix delta_ell i, PSMap n m m p.1 p.2) /
    ((binPixels n pix delta_ell i).card : ℝ) * CLfactor pix, ?_, ?_⟩
  · show CLArray n m m delta_ell pix i = _
    unfold CLArray CLraw
    rw [if_neg hcard]
    rfl
  · apply mul_nonneg _ (CLfactor_nonneg pix)
    apply div_nonneg _ (Nat.cast_nonneg _)
    exact Finset.sum_nonneg (fun p _ => PSMap_auto_nonneg n m p.1 p.2)

/-- Witness for claim C2 at the concrete call with N = 2, pix_size = 1,
delta_ell = ell_max = 20000 and the zero map: bin 0 contains pixel (0, 0)
and the returned bin value is a non-negative some. -/
theorem auto_spectrum_nonneg_witness :
    ∃ v, (calculate_2d_spectrum 2 zeroMap2 zeroMap2 20000 20000 1).2 0 = some v ∧
      0 ≤ v :=
  auto_spectrum_nonneg 2 zeroMap2 20000 20000 1 0 ⟨(0, 0), bin0_mem_n2⟩

/-- Claim C10: gauss_beam(ell, fwhm) equals
exp(-(deg2rad(fwhm/60))^2 * ell^2 / (16 * log 2)); for fwhm > 0 its value
lies in the half-open interval from 0 (exclusive) to 1 (inclusive), and it
equals 1 exactly when ell = 0, so the beam transfer function is strictly
positive everywhere and dividing by it never divides by zero in exact
arithmetic. -/
theorem gauss_beam_props (ell fwhm : ℝ) (h : 0 < fwhm) :
    gauss_beam ell fwhm =
      Real.exp (-(deg2rad (fwhm / 60) ^ 2) * ell ^ 2 / (16 * Real.log 2)) ∧
    0 < gauss_beam ell fwhm ∧ gauss_beam ell fwhm ≤ 1 ∧
    (gauss_beam ell fwhm = 1 ↔ ell = 0) := by
  have hlog : 0 < Real.log 2 := Real.log_pos (by norm_num)
  have hpi := Real.pi_pos
  have ht : 0 < deg2rad (fwhm / 60) := by
    unfold deg2rad
    positivity
  refine ⟨rfl, Real.exp_pos _, ?_, ?_⟩
  · rw [show (1 : ℝ) = Real.exp 0 by rw [Real.exp_zero]]
    apply Real.exp_le_exp.mpr
    apply div_nonpos_of_nonpos_of_nonneg _ (by positivity)
    nlinarith [sq_nonneg (deg2rad (fwhm / 60) * ell)]
  · unfold gauss_beam
    rw [Real.exp_eq_one_iff, div_eq_zero_iff]
    have h16 : (16 : ℝ) * Real.log 2 ≠ 0 := by positivity
    have ht2 : deg2rad (fwhm / 60) ^ 2 ≠ 0 := by positivity
    constructor
    · rintro (h0 | h0)
      · rcases mul_eq_zero.mp h0 with h1 | h1
        · exact absurd (neg_eq_zero.mp h1) ht2
        · exact (pow_eq_zero_iff two_ne_zero).mp h1
      · exact absurd h0 h16
    · intro h0
      left
      rw [h0]
      ring

/-- Witness for claim C10 at ell = 0, fwhm = 1. -/
theorem gauss_beam_props_witness :
    0 < (1 : ℝ) ∧
    (gauss_beam 0 1 =
      Real.exp (-(deg2rad (1 / 60) ^ 2) * 0 ^ 2 / (16 * Real.log 2)) ∧
    0 < gauss_beam 0 1 ∧ gauss_beam 0 1 ≤ 1 ∧
    (gauss_beam 0 1 = 1 ↔ (0 : ℝ) = 0)) :=
  ⟨by norm_num, gauss_beam_props 0 1 (by norm_num)⟩

/-- Counterexample to claim C3 as stated: at delta_ell = 1 (odd),
ell_max = 1 (so N_bins = 1 and bin index 0 is in range), the returned
ell_array entry is the int64 value 0, not (0 + 0.5) * 1 = 0.5: numpy
truncates the float on assignment into the integer array. -/
theorem ellArray_not_center_counterexample :
    (((calculate_2d_spectrum 2 zeroMap2 zeroMap2 1 1 1).1 0 : ℤ) : ℝ) ≠
      (((0 : ℕ) : ℝ) + 0.5) * 1 := by
  have h : (calculate_2d_spectrum 2 zeroMap2 zeroMap2 1 1 1).1 0 = 0 := by
    show ellArray 1 0 = 0
    unfold ellArray truncToInt
    rw [if_pos (by norm_num)]
    rw [Int.floor_eq_zero_iff]
    constructor <;> norm_num
  rw [h]
  norm_num

/-- Claim C3 amended: for delta_ell ≥ 0, the returned ell_array entry for
bin i is the floor (equivalently, the float-to-int64 truncation) of
(i + 0.5) * delta_ell; it equals (i + 0.5) * delta_ell itself only when
that product is an integer (e.g. even integer delta_ell), not in general
for odd or non-integer delta_ell. -/
theorem ellArray_is_trunc (n : ℕ) (m1 m2 : Map n) (delta_ell ell_max pix : ℝ)
    (i : ℕ) (h : 0 ≤ delta_ell) :
    (calculate_2d_spectrum n m1 m2 delta_ell ell_max pix).1 i =
      ⌊((i : ℝ) + 0.5) * delta_ell⌋ := by
  show ellArray delta_ell i = _
  unfold ellArray truncToInt
  rw [if_pos (mul_nonneg (by positivity) h)]

/-- Witness for the amended claim C3 at delta_ell = 1, bin 0: the entry is
the floor of 0.5. -/
theorem ellArray_is_trunc_witness :
    (0 : ℝ) ≤ 1 ∧
    (calculate_2d_spectrum 2 zeroMap2 zeroMap2 1 1 1).1 0 =
      ⌊(((0 : ℕ) : ℝ) + 0.5) * 1⌋ :=
  ⟨by norm_num, ellArray_is_trunc 2 zeroMap2 zeroMap2 1 1 1 0 (by norm_num)⟩

/-- Claim C5: calculate_2d_spectrum uses exactly
N_bins = floor(ell_max / delta_ell) contiguous bins (for delta_ell > 0 and
ell_max ≥ 0); for every bin i that contains at least one pixel the returned
value is the mean of the 2D cross-power over exactly those pixels whose
ell2d value lies in the half-open interval from i * delta_ell to
(i + 1) * delta_ell, multiplied by the constant factor CLfactor pix_size,
which depends only on pix_size and not on the bin or the maps. -/
theorem spectrum_binning (n : ℕ) (m1 m2 : Map n) (delta_ell ell_max pix : ℝ)
    (hd : 0 < delta_ell) (he : 0 ≤ ell_max) :
    ((nBins delta_ell ell_max : ℤ) = ⌊ell_max / delta_ell⌋) ∧
    ∀ i, (binPixels n pix delta_ell i).Nonempty →
      ((calculate_2d_spectrum n m1 m2 delta_ell ell_max pix).2 i =
        some ((∑ p ∈ binPixels n pix delta_ell i, PSMap n m1 m2 p.1 p.2) /
          ((binPixels n pix delta_ell i).card : ℝ) * CLfactor pix) ∧
       ∀ p : Fin n × Fin n, p ∈ binPixels n pix delta_ell i ↔
         ((i : ℝ) * delta_ell ≤ ell2d n pix p.1 p.2 ∧
          ell2d n pix p.1 p.2 < ((i : ℝ) + 1) * delta_ell)) := by
  constructor
  · unfold nBins truncToInt
    have hq : 0 ≤ ell_max / delta_ell := div_nonneg he hd.le
    rw [if_pos hq]
    exact Int.toNat_of_nonneg (Int.floor_nonneg.mpr hq)
  · intro i hi
    have hcard : (binPixels n pix delta_ell i).card ≠ 0 :=
      (Finset.card_pos.mpr hi).ne'
    constructor
    · show CLArray n m1 m2 delta_ell pix i = _
      unfold CLArray CLraw
      rw [if_neg hcard]
      rfl
    · intro p
      simp [binPixels]

/-- Witness for claim C5 at the concrete call with N = 2, pix_size = 1,
delta_ell = ell_max = 20000 and the zero map. -/
theorem spectrum_binning_witness :
    (0 : ℝ) < 20000 ∧ (0 : ℝ) ≤ 20000 ∧
    (((nBins 20000 20000 : ℤ) = ⌊(20000 : ℝ) / 20000⌋) ∧
    ∀ i, (binPixels 2 1 20000 i).Nonempty →
      ((calculate_2d_spectrum 2 zeroMap2 zeroMap2 20000 20000 1).2 i =
        some ((∑ p ∈ binPixels 2 1 20000 i, PSMap 2 zeroMap2 zeroMap2 p.1 p.2) /
          ((binPixels 2 1 20000 i).card : ℝ) * CLfactor 1) ∧
       ∀ p : Fin 2 × Fin 2, p ∈ binPixels 2 1 20000 i ↔
         ((i : ℝ) * 20000 ≤ ell2d 2 1 p.1 p.2 ∧
          ell2d 2 1 p.1 p.2 < ((i : ℝ) + 1) * 20000))) :=
  ⟨by norm_num, by norm_num,
    spectrum_binning 2 zeroMap2 zeroMap2 20000 20000 1 (by norm_num) (by norm_num)⟩

/-- Claim C6: if a bin of calculate_2d_spectrum contains zero pixels, the
function still returns (it is total, no error is raised), the CL_array
entry for that bin is the NaN of numpy mean-of-empty (modelled as none),
and every other bin with at least one pixel keeps its ordinary mean value,
unaffected by the degenerate bin. -/
theorem empty_bin_nan (n : ℕ) (m1 m2 : Map n) (delta_ell ell_max pix : ℝ)
    (i : ℕ) (h : binPixels n pix delta_ell i = ∅) :
    (calculate_2d_spectrum n m1 m2 delta_ell ell_max pix).2 i = none ∧
    ∀ j, (binPixels n pix delta_ell j).Nonempty →
      (calculate_2d_spectrum n m1 m2 delta_ell ell_max pix).2 j =
        some ((∑ p ∈ binPixels n pix delta_ell j, PSMap n m1 m2 p.1 p.2) /
          ((binPixels n pix delta_ell j).card : ℝ) * CLfactor pix) := by
  constructor
  · show CLArray n m1 m2 delta_ell pix i = none
    unfold CLArray CLraw
    rw [h]
    simp
  · intro j hj
    have hcard : (binPixels n pix delta_ell j).card ≠ 0 :=
      (Finset.card_pos.mpr hj).ne'
    show CLArray n m1 m2 delta_ell pix j = _
    unfold CLArray CLraw
    rw [if_neg hcard]
    rfl

/-- Witness for claim C6 at N = 2, pix_size = 1, delta_ell = ell_max = 1:
bin 0 covers multipoles below 1 while every grid pixel has
ell2d = 10800 * sqrt 2, so bin 0 is empty and its entry is none. -/
theorem empty_bin_nan_witness :
    binPixels 2 1 1 0 = ∅ ∧
    ((calculate_2d_spectrum 2 zeroMap2 zeroMap2 1 1 1).2 0 = none ∧
    ∀ j, (binPixels 2 1 1 j).Nonempty →
      (calculate_2d_spectrum 2 zeroMap2 zeroMap2 1 1 1).2 j =
        some ((∑ p ∈ binPixels 2 1 1 j, PSMap 2 zeroMap2 zeroMap2 p.1 p.2) /
          ((binPixels 2 1 1 j).card : ℝ) * CLfactor 1)) :=
  ⟨bin0_empty_n2, empty_bin_nan 2 zeroMap2 zeroMap2 1 1 1 0 bin0_empty_n2⟩

lemma negIdx_add_dvd (n : ℕ) (c : Fin n) :
    (n : ℤ) ∣ ((c.val : ℤ) + ((negIdx c).val : ℤ)) := by
  show (n : ℤ) ∣ ((c.val : ℤ) + (((n - c.val) % n : ℕ) : ℤ))
  rcases Nat.eq_zero_or_pos c.val with h | h
  · simp [h, Nat.mod_self]
  · have hlt : n - c.val < n := by
      have := c.isLt
      omega
    rw [Nat.mod_eq_of_lt hlt]
    have hcast : (c.val : ℤ) + ((n - c.val : ℕ) : ℤ) = (n : ℤ) := by
      push_cast [Nat.cast_sub c.isLt.le]
      ring
    rw [hcast]

lemma exp_two_pi_int_div (n : ℕ) (hn : n ≠ 0) (u v : ℤ)
    (h : (n : ℤ) ∣ (u - v)) :
    Complex.exp (2 * (Real.pi : ℂ) * Complex.I * (u : ℂ) / (n : ℂ)) =
    Complex.exp (2 * (Real.pi : ℂ) * Complex.I * (v : ℂ) / (n : ℂ)) := by
  obtain ⟨k, hk⟩ := h
  have hn' : (n : ℂ) ≠ 0 := Nat.cast_ne_zero.mpr hn
  have h2 : (u : ℂ) = (v : ℂ) + (n : ℂ) * (k : ℂ) := by
    have h3 : u = v + (n : ℤ) * k := by linarith
    rw [h3]
    push_cast
    ring
  rw [h2]
  have heq : 2 * (Real.pi : ℂ) * Complex.I * ((v : ℂ) + (n : ℂ) * (k : ℂ)) / (n : ℂ) =
      2 * (Real.pi : ℂ) * Complex.I * (v : ℂ) / (n : ℂ) +
      (k : ℂ) * (2 * (Real.pi : ℂ) * Complex.I) := by
    field_simp
    ring
  rw [heq, Complex.exp_add, Complex.exp_int_mul_two_pi_mul_I, mul_one]

lemma ifft2_eq_dft2_negIdx (n : ℕ) (x : Fin n → Fin n → ℂ) (a b : Fin n) :
    ifft2 n x a b = dft2 n x (negIdx a) (negIdx b) / (n : ℂ) ^ 2 := by
  have hn : n ≠ 0 := a.pos.ne'
  unfold ifft2 dft2
  congr 1
  apply Finset.sum_congr rfl
  intro m _
  apply Finset.sum_congr rfl
  intro j _
  congr 1
  have hrw : -(2 * (Real.pi : ℂ) * Complex.I) *
      (((negIdx a).val * m.val + (negIdx b).val * j.val : ℕ) : ℂ) / (n : ℂ) =
      2 * (Real.pi : ℂ) * Complex.I *
      ((-((negIdx a).val * m.val + (negIdx b).val * j.val : ℕ) : ℤ) : ℂ) / (n : ℂ) := by
    push_cast
    ring
  rw [hrw]
  have hdvd : (n : ℤ) ∣
      (((a.val * m.val + b.val * j.val : ℕ) : ℤ) -
       (-((negIdx a).val * m.val + (negIdx b).val * j.val : ℕ) : ℤ)) := by
    have h1 : (((a.val * m.val + b.val * j.val : ℕ) : ℤ) -
        (-((negIdx a).val * m.val + (negIdx b).val * j.val : ℕ) : ℤ)) =
        ((a.val : ℤ) + ((negIdx a).val : ℤ)) * (m.val : ℤ) +
        ((b.val : ℤ) + ((negIdx b).val : ℤ)) * (j.val : ℤ) := by
      push_cast
      ring
    rw [h1]
    exact dvd_add ((negIdx_add_dvd n a).mul_right _) ((negIdx_add_dvd n b).mul_right _)
  have := exp_two_pi_int_div n hn
    ((a.val * m.val + b.val * j.val : ℕ) : ℤ)
    (-((negIdx a).val * m.val + (negIdx b).val * j.val : ℕ) : ℤ) hdvd
  simpa using this

/-- Counterexample to claim C4 as stated: at N = 2 with both maps all ones,
the grid binned by calculate_2d_spectrum differs from the grid obtained by
forward-transforming each map with the 2D discrete Fourier transform and
taking the real part of conj(T1) * T2 (the code instead applies numpy
ifft2 to the fftshifted maps and fftshifts the resulting cross-power). -/
theorem psmap_ne_forward_counterexample :
    PSMap 2 onesMap2 onesMap2 0 0 ≠ specForwardCrossPower 2 onesMap2 onesMap2 0 0 := by
  have he0 : Complex.exp (2 * (Real.pi : ℂ) * Complex.I * ((0 : ℕ) : ℂ) / ((2 : ℕ) : ℂ)) = 1 := by
    norm_num [Complex.exp_zero]
  have he1 : Complex.exp (2 * (Real.pi : ℂ) * Complex.I * ((1 : ℕ) : ℂ) / ((2 : ℕ) : ℂ)) = -1 := by
    rw [show 2 * (Real.pi : ℂ) * Complex.I * ((1 : ℕ) : ℂ) / ((2 : ℕ) : ℂ) =
      (Real.pi : ℂ) * Complex.I by push_cast; ring]
    exact Complex.exp_pi_mul_I
  have he2 : Complex.exp (2 * (Real.pi : ℂ) * Complex.I * ((2 : ℕ) : ℂ) / ((2 : ℕ) : ℂ)) = 1 := by
    rw [show 2 * (Real.pi : ℂ) * Complex.I * ((2 : ℕ) : ℂ) / ((2 : ℕ) : ℂ) =
      2 * (Real.pi : ℂ) * Complex.I by push_cast; ring]
    exact Complex.exp_two_pi_mul_I
  have hf0 : Complex.exp (-(2 * (Real.pi : ℂ) * Complex.I) * ((0 : ℕ) : ℂ) / ((2 : ℕ) : ℂ)) = 1 := by
    norm_num [Complex.exp_zero]
  have h1 : PSMap 2 onesMap2 onesMap2 0 0 = 0 := by
    show ((starRingEnd ℂ) (FMap 2 onesMap2 (shiftIdx 0) (shiftIdx 0)) *
      FMap 2 onesMap2 (shiftIdx 0) (shiftIdx 0)).re = 0
    have hs : shiftIdx (0 : Fin 2) = 1 := rfl
    rw [hs]
    have hF : FMap 2 onesMap2 1 1 = 0 := by
      show ifft2 2 (fftshift 2 (toC 2 onesMap2)) 1 1 = 0
      unfold ifft2 fftshift toC onesMap2
      rw [Fin.sum_univ_two]
      rw [Fin.sum_univ_two, Fin.sum_univ_two]
      norm_num
      rw [show 2 * (Real.pi : ℂ) * Complex.I / 2 = (Real.pi : ℂ) * Complex.I by ring]
      rw [Complex.exp_pi_mul_I]
      ring
    rw [hF]
    simp
  have h2 : specForwardCrossPower 2 onesMap2 onesMap2 0 0 = 16 := by
    unfold specForwardCrossPower
    have hD : dft2 2 (toC 2 onesMap2) 0 0 = 4 := by
      unfold dft2 toC onesMap2
      rw [Fin.sum_univ_two]
      rw [Fin.sum_univ_two, Fin.sum_univ_two]
      norm_num
    rw [hD]
    rw [Complex.conj_ofNat]
    norm_num [Complex.mul_re]
  rw [h1, h2]
  norm_num

/-- Claim C4 amended: the 2D cross-power grid binned by
calculate_2d_spectrum is obtained by applying numpy ifft2 (the normalized,
positive-exponent inverse 2D discrete Fourier transform) to each fftshifted
input map, taking the real part of conj(T1) * T2, and fftshifting the
result; equivalently, it equals the forward-DFT cross-power grid of the
fftshifted maps, evaluated at negated and recentered frequency indices, and
divided by N^4. -/
theorem psmap_eq_forward_scaled (n : ℕ) (m1 m2 : Map n) (k l : Fin n) :
    PSMap n m1 m2 k l =
      specForwardCrossPower n (fftshift n m1) (fftshift n m2)
        (negIdx (shiftIdx k)) (negIdx (shiftIdx l)) / (n : ℝ) ^ 4 := by
  have e1 : PSMap n m1 m2 k l =
      ((starRingEnd ℂ) (FMap n m1 (shiftIdx k) (shiftIdx l)) *
        FMap n m2 (shiftIdx k) (shiftIdx l)).re := rfl
  rw [e1]
  have e2 : ∀ m : Map n, FMap n m (shiftIdx k) (shiftIdx l) =
      dft2 n (toC n (fftshift n m)) (negIdx (shiftIdx k)) (negIdx (shiftIdx l)) /
        (n : ℂ) ^ 2 := by
    intro m
    show ifft2 n (fftshift n (toC n m)) (shiftIdx k) (shiftIdx l) = _
    rw [ifft2_eq_dft2_negIdx]
    rfl
  rw [e2, e2]
  unfold specForwardCrossPower
  rw [map_div₀, map_pow, Complex.conj_natCast, div_mul_div_comm]
  have hpow : ((n : ℂ) ^ 2 * (n : ℂ) ^ 2) = (((n : ℝ) ^ 4 : ℝ) : ℂ) := by
    push_cast
    ring
  rw [hpow, Complex.div_ofReal_re]

lemma dft2_neg (n : ℕ) (x : Fin n → Fin n → ℂ) (k l : Fin n) :
    dft2 n (fun i j => -(x i j)) k l = -(dft2 n x k l) := by
  unfold dft2
  simp [neg_mul, Finset.sum_neg_distrib]

lemma filter_map_neg (n : ℕ) (m t : Map n) :
    filter_map n (fun i j => -(m i j)) t =
      fun i j => -(filter_map n m t i j) := by
  funext i j
  have h1 : toC n (fun a b => -(m a b)) = fun a b => -(toC n m a b) := by
    funext a b
    simp [toC]
  unfold filter_map
  rw [h1]
  unfold ifft2
  simp only [dft2_neg, neg_mul, Finset.sum_neg_distrib, neg_div, Complex.neg_re]

/-- Claim C7: qe_reconstruct builds exactly two transfer functions, both
band-limited to the half-open interval from ellmin to ellmax via kmask: the
inverse-variance filter, equal to the band-limited 1/total_cmb_power_2d and
applied (via filter_map) to the temperature map itself, and the
Wiener/gradient filter, equal to the band-limited
unlensed_cmb_power_2d/total_cmb_power_2d and applied to each of the two
components of the spatial gradient of the temperature map. -/
theorem qe_two_filters (n : ℕ) (tmap u2d tot2d modlmap ly lx : Map n)
    (ellmin ellmax : ℝ) :
    (∀ i j, qeInvNoiseFilter n tot2d modlmap ellmin ellmax i j =
      if ellmin ≤ modlmap i j ∧ modlmap i j < ellmax
      then 1 / tot2d i j else 0) ∧
    (∀ i j, qeGradFilter n u2d tot2d modlmap ellmin ellmax i j =
      if ellmin ≤ modlmap i j ∧ modlmap i j < ellmax
      then u2d i j / tot2d i j else 0) ∧
    qeFilteredT n tmap tot2d modlmap ellmin ellmax =
      filter_map n tmap (qeInvNoiseFilter n tot2d modlmap ellmin ellmax) ∧
    qeFilteredGradY n tmap u2d tot2d modlmap ly ellmin ellmax =
      filter_map n (gradientY n tmap ly)
        (qeGradFilter n u2d tot2d modlmap ellmin ellmax) ∧
    qeFilteredGradX n tmap u2d tot2d modlmap lx ellmin ellmax =
      filter_map n (gradientX n tmap lx)
        (qeGradFilter n u2d tot2d modlmap ellmin ellmax) := by
  refine ⟨?_, ?_, rfl, rfl, rfl⟩
  · intro i j
    show kmask n (fun a b => 1 / tot2d a b) modlmap ellmin (some ellmax) i j = _
    unfold kmask
    refine if_congr ?_ rfl rfl
    simp
  · intro i j
    show kmask n (fun a b => u2d a b / tot2d a b) modlmap ellmin (some ellmax) i j = _
    unfold kmask
    refine if_congr ?_ rfl rfl
    simp

/-- Claim C8: the map qe_reconstruct returns is the negation of the raw
divergence-based estimate filtered by the flattening transfer function
kmask(1/modlmap^2, modlmap, ellmin = 2) (equivalently, by linearity of
filter_map, the filter applied to the negated raw estimate), and that
transfer function is zero at every Fourier pixel whose modlmap value is
below 2 (including the origin), so those pixels contribute zero to the
output. -/
theorem qe_final_filter (n : ℕ) (tmap u2d tot2d : Map n) (ellmin ellmax : ℝ)
    (modlmap ly lx : Map n) :
    qe_reconstruct n tmap u2d tot2d ellmin ellmax modlmap ly lx =
      (fun i j => -(filter_map n
        (qeReconKappa n tmap u2d tot2d modlmap ly lx ellmin ellmax)
        (kmask n (fun a b => 1 / modlmap a b ^ 2) modlmap 2 none) i j)) ∧
    qe_reconstruct n tmap u2d tot2d ellmin ellmax modlmap ly lx =
      filter_map n
        (fun i j => -(qeReconKappa n tmap u2d tot2d modlmap ly lx ellmin ellmax i j))
        (kmask n (fun a b => 1 / modlmap a b ^ 2) modlmap 2 none) ∧
    (∀ i j, modlmap i j < 2 →
      kmask n (fun a b => 1 / modlmap a b ^ 2) modlmap 2 none i j = 0) := by
  refine ⟨rfl, ?_, ?_⟩
  · rw [filter_map_neg]
    rfl
  · intro i j h
    unfold kmask
    rw [if_neg]
    intro hc
    exact absurd hc.1 (not_le.mpr h)

end CMBLensing
